import Mathlib

/-!
Shallow embedding of `src/task_04/src/lattice_wer.py`: the word-lattice
consensus and WER engine (classes `WordLattice` and `LatticeWER`).

Python token lists become `List String`, Python `set` of source names becomes
`Finset String`, Python floats (confidences, thresholds, WER values) become
`ℚ`, and insertion-ordered Python dicts become association lists updated in
place.  Fallible code (`get_consensus_transcription` raising `ValueError`)
returns `Except`.
-/

namespace LatticeWer

/-- ASCII-style per-character lowercasing: model of Python `str.lower()` as it
acts on ASCII letters (the spec's "case-folded (ASCII-style lowercasing)"). -/
def lowerChar (c : Char) : Char :=
  if 65 ≤ c.toNat ∧ c.toNat ≤ 90 then Char.ofNat (c.toNat + 32) else c

/-- Model of Python `str.lower()` (ASCII-style): lowercase every character. -/
def lower (s : String) : String :=
  ⟨s.data.map lowerChar⟩

/-- The cost table of the Levenshtein DP shared by
`LatticeWER._get_alignment_details` and `WordLattice._align_pair`:
`lev eqT i j` is `dp[i][j]`, where `eqT a b` is the token comparison between
the `a`-th row token and the `b`-th column token.  Faithful to the fill loop:
cost `dp[i-1][j-1]` on a match, else `1 + min(sub, delete, insert)`. -/
def lev (eqT : Nat → Nat → Bool) : Nat → Nat → Nat
  | i, 0 => i
  | 0, j + 1 => j + 1
  | i + 1, j + 1 =>
    if eqT i j then lev eqT i j
    else min (lev eqT i j + 1) (min (lev eqT i (j + 1) + 1) (lev eqT (i + 1) j + 1))
  termination_by i j => i + j

/-- Alignment operations stored in the `ops` table / alignment traces:
`'match' / 'substitute' / 'delete' / 'insert'` in the Python source. -/
inductive EOp where
  | M
  | S
  | D
  | I
  deriving DecidableEq, Repr

/-- `ops[i][j]` of `_get_alignment_details` (and the op component of
`_align_pair`'s dp) for `i, j ≥ 1`: `'M'` when the case-folded tokens match,
otherwise the tie-break order Substitute, then Delete, then Insert. -/
def opAt (eqT : Nat → Nat → Bool) (i j : Nat) : EOp :=
  if eqT (i - 1) (j - 1) then .M
  else
    let sub := lev eqT (i - 1) (j - 1) + 1
    let del := lev eqT (i - 1) j + 1
    let ins := lev eqT i (j - 1) + 1
    let min_cost := min sub (min del ins)
    if min_cost = sub then .S else if min_cost = del then .D else .I

/-- The operation-count record returned by `_get_alignment_details`. -/
structure OpCounts where
  substitutions : Nat
  deletions : Nat
  insertions : Nat
  deriving DecidableEq, Repr

/-- The backtrace loop of `_get_alignment_details`, counting operations while
walking from `(i, j)` back to `(0, 0)`: at the boundaries the walk is forced
(`i = 0`: insertions, `j = 0`: deletions); in the interior it follows
`ops[i][j]`. -/
def countOps (eqT : Nat → Nat → Bool) : Nat → Nat → OpCounts
  | 0, 0 => ⟨0, 0, 0⟩
  | 0, j + 1 =>
    let c := countOps eqT 0 j
    ⟨c.substitutions, c.deletions, c.insertions + 1⟩
  | i + 1, 0 =>
    let c := countOps eqT i 0
    ⟨c.substitutions, c.deletions + 1, c.insertions⟩
  | i + 1, j + 1 =>
    match opAt eqT (i + 1) (j + 1) with
    | .M => countOps eqT i j
    | .S =>
      let c := countOps eqT i j
      ⟨c.substitutions + 1, c.deletions, c.insertions⟩
    | .D =>
      let c := countOps eqT i (j + 1)
      ⟨c.substitutions, c.deletions + 1, c.insertions⟩
    | .I =>
      let c := countOps eqT (i + 1) j
      ⟨c.substitutions, c.deletions, c.insertions + 1⟩
  termination_by i j => i + j

/-- Case-folded token comparison `hyp[i].lower() == ref[j].lower()` used by
`_get_alignment_details` (0-based; queried only in bounds by the DP). -/
def tokEqFold (hyp ref : List String) (i j : Nat) : Bool :=
  lower (hyp.getD i "") == lower (ref.getD j "")

/-- Raw (case-sensitive) token equality, as used by the external
`editdistance` library on the unmodified token lists. -/
def tokEqRaw (hyp ref : List String) (i j : Nat) : Bool :=
  hyp.getD i "" == ref.getD j ""

/-- Model of the external `editdistance.eval(hypothesis, reference)` call:
the Levenshtein distance between the raw token lists under case-sensitive
equality (the library performs no case folding). -/
def editdistance_eval (hyp ref : List String) : Nat :=
  lev (tokEqRaw hyp ref) hyp.length ref.length

/-- `LatticeWER._get_alignment_details`: operation counts from the case-folded
DP backtrace starting at `(len(hyp), len(ref))`. -/
def get_alignment_details (hyp ref : List String) : OpCounts :=
  countOps (tokEqFold hyp ref) hyp.length ref.length

/-- The record returned by `LatticeWER.compute_standard_wer`. -/
structure WERRecord where
  wer : ℚ
  distance : Nat
  reference_length : Nat
  substitutions : Nat
  deletions : Nat
  insertions : Nat
  deriving DecidableEq, Repr

/-- `LatticeWER.compute_standard_wer`: distance from the `editdistance`
library, operation counts from `_get_alignment_details`, and
`wer = distance / len(reference)` guarded against an empty reference. -/
def compute_standard_wer (hypothesis reference : List String) : WERRecord :=
  let distance := editdistance_eval hypothesis reference
  let alignment := get_alignment_details hypothesis reference
  let wer : ℚ :=
    if 0 < reference.length then (distance : ℚ) / (reference.length : ℚ) else 0
  { wer := wer
    distance := distance
    reference_length := reference.length
    substitutions := alignment.substitutions
    deletions := alignment.deletions
    insertions := alignment.insertions }

/-- The trace entries produced by `_align_pair` / `_align_all_sequences`:
`(position, word, operation)` triples. -/
abbrev TraceEntry := Nat × String × EOp

/-- The backtrack loop of `WordLattice._align_pair`, producing the alignment
trace of `seq2` against anchor `seq1` in left-to-right order (the Python code
appends walking backwards and then reverses; building forward is the same
list).  Interior cells follow the dp op (same comparison and tie-break as
`opAt`); the trailing `elif op == 'insert'` of the source is the only
remaining reachable case and is the catch-all here. -/
def backtrack_pair (seq1 seq2 : List String) : Nat → Nat → List TraceEntry
  | 0, 0 => []
  | 0, j + 1 => backtrack_pair seq1 seq2 0 j ++ [(j, seq2.getD j "", .I)]
  | i + 1, 0 => backtrack_pair seq1 seq2 i 0 ++ [(i, seq1.getD i "", .D)]
  | i + 1, j + 1 =>
    match opAt (tokEqFold seq1 seq2) (i + 1) (j + 1) with
    | .M => backtrack_pair seq1 seq2 i j ++ [(i, seq2.getD j "", .M)]
    | .S => backtrack_pair seq1 seq2 i j ++ [(i, seq2.getD j "", .S)]
    | .D => backtrack_pair seq1 seq2 i (j + 1) ++ [(i, seq1.getD i "", .D)]
    | .I => backtrack_pair seq1 seq2 (i + 1) j ++ [(j, seq2.getD j "", .I)]
  termination_by i j => i + j

/-- `WordLattice._align_pair`: DP alignment of `seq2` to `seq1`, returning the
trace from the full backtrack. -/
def align_pair (seq1 seq2 : List String) : List TraceEntry :=
  backtrack_pair seq1 seq2 seq1.length seq2.length

/-- Insertion-ordered-dict update, modelling `{**hypotheses, 'reference':
reference}`: replace the value in place if the key is present, else append. -/
def dictInsert (m : List (String × List String)) (k : String) (v : List String) :
    List (String × List String) :=
  if m.any (fun p => p.1 == k) then
    m.map (fun p => if p.1 == k then (k, v) else p)
  else m ++ [(k, v)]

/-- `max(all_sequences.keys(), key=lambda k: len(all_sequences[k]))` together
with the corresponding value: Python `max` keeps the first item attaining the
maximum.  The `[]` branch is unreachable because `all_sequences` always
contains the `'reference'` entry. -/
def anchorOf (seqs : List (String × List String)) : String × List String :=
  match seqs with
  | [] => ("", [])
  | x :: xs => xs.foldl (fun acc y => if acc.2.length < y.2.length then y else acc) x

/-- `WordLattice._align_all_sequences`: add the reference under the sentinel
key `'reference'`, pick the longest sequence as anchor, give the anchor the
trivial all-match trace at its own indices, and align every other sequence to
the anchor with `_align_pair`. -/
def align_all_sequences (hypotheses : List (String × List String))
    (reference : List String) : List (String × List TraceEntry) :=
  let all_sequences := dictInsert hypotheses "reference" reference
  let anchor := anchorOf all_sequences
  all_sequences.map (fun p =>
    if p.1 == anchor.1 then
      (p.1, p.2.enum.map (fun q => (q.1, q.2, EOp.M)))
    else
      (p.1, align_pair anchor.2 p.2))

/-- `LatticeNode`: a word variant at a lattice position, with the set of
contributing sequence names and its agreement confidence. -/
structure LatticeNode where
  position : Nat
  word : String
  sources : Finset String
  confidence : ℚ
  deriving DecidableEq

/-- `LatticeEdge`: edge from a node's position to the next occupied position. -/
structure LatticeEdge where
  start_pos : Nat
  end_pos : Nat
  word : String
  sources : Finset String
  weight : ℚ
  deriving DecidableEq

/-- The lattice state (`self.nodes`, `self.edges`). -/
structure WordLattice where
  nodes : List LatticeNode
  edges : List LatticeEdge
  deriving DecidableEq

/-- Inner-dict update of `position_words[pos]`: add `name` to the source set
of word `w`, creating the entry (in insertion order) if absent. -/
def addName (ws : List (String × Finset String)) (w name : String) :
    List (String × Finset String) :=
  if ws.any (fun q => q.1 == w) then
    ws.map (fun q => if q.1 == w then (q.1, insert name q.2) else q)
  else ws ++ [(w, {name})]

/-- Outer-dict update: `position_words[pos][w].add(name)` on the nested
insertion-ordered defaultdicts. -/
def addSource (pw : List (Nat × List (String × Finset String))) (pos : Nat)
    (w name : String) : List (Nat × List (String × Finset String)) :=
  if pw.any (fun p => p.1 == pos) then
    pw.map (fun p => if p.1 == pos then (p.1, addName p.2 w name) else p)
  else pw ++ [(pos, [(w, {name})])]

/-- Lookup of a key in an insertion-ordered dict of lists (`position_words[pos]`
indexing; the key is always present where the source performs the lookup). -/
def lookupD {α : Type} (pw : List (Nat × List α)) (k : Nat) : List α :=
  (((pw.find? (fun p => p.1 == k)).map (fun p => p.2)).getD [])

/-- `WordLattice._construct_lattice`: group non-delete trace ops into
`position → word.lower() → source set`, then emit one node per distinct
`(position, word)` in ascending position order with
`confidence = |sources| / len(alignments)`, and one edge from every node at a
non-final position to the next distinct position with `weight = 1 -
confidence`.  (The Python method also receives the unused `reference`
parameter.) -/
def construct_lattice (alignments : List (String × List TraceEntry))
    (_reference : List String) : WordLattice :=
  let position_words : List (Nat × List (String × Finset String)) :=
    alignments.foldl (fun acc p =>
      p.2.foldl (fun acc2 t =>
        if t.2.2 == EOp.D then acc2
        else addSource acc2 t.1 (lower t.2.1) p.1) acc) []
  let positions := (position_words.map (fun p => p.1)).insertionSort (· ≤ ·)
  let nodes : List LatticeNode :=
    positions.foldl (fun ns pos =>
      ns ++ (lookupD position_words pos).map (fun ws =>
        { position := pos
          word := ws.1
          sources := ws.2
          confidence := (ws.2.card : ℚ) / (alignments.length : ℚ) })) []
  let edges : List LatticeEdge :=
    positions.enum.foldl (fun es ip =>
      if ip.1 < positions.length - 1 then
        es ++ (lookupD position_words ip.2).map (fun ws =>
          { start_pos := ip.2
            end_pos := positions.getD (ip.1 + 1) 0
            word := ws.1
            sources := ws.2
            weight := 1 - (ws.2.card : ℚ) / (alignments.length : ℚ) })
      else es) []
  { nodes := nodes, edges := edges }

/-- `WordLattice.build_from_hypotheses`: align everything, then construct the
lattice. -/
def build_from_hypotheses (hypotheses : List (String × List String))
    (reference : List String) : WordLattice :=
  construct_lattice (align_all_sequences hypotheses reference) reference

/-- `position_words[key].append(v)` on a `defaultdict(list)`: append to the
existing entry or create it at the end (first-insertion key order). -/
def appendAt {α : Type} (acc : List (Nat × List α)) (k : Nat) (v : α) :
    List (Nat × List α) :=
  if acc.any (fun p => p.1 == k) then
    acc.map (fun p => if p.1 == k then (p.1, p.2 ++ [v]) else p)
  else acc ++ [(k, [v])]

/-- Python `max(l, key=f)` with a supplied value for the (never-exercised)
empty case: keeps the first element attaining the maximal key. -/
def pyMaxBy {α β : Type} [LinearOrder β] (f : α → β) (dflt : α) : List α → α
  | [] => dflt
  | x :: xs => xs.foldl (fun acc y => if f acc < f y then y else acc) x

/-- `WordLattice._voting_consensus`: group `(word, len(sources))` pairs by
position, then for each position in ascending order emit the word with the
most sources (first wins ties). -/
def voting_consensus (lat : WordLattice) : List String :=
  let position_words : List (Nat × List (String × Nat)) :=
    lat.nodes.foldl (fun acc n => appendAt acc n.position (n.word, n.sources.card)) []
  ((position_words.map (fun p => p.1)).insertionSort (· ≤ ·)).map
    (fun pos => (pyMaxBy (fun x => x.2) ("", 0) (lookupD position_words pos)).1)

/-- `WordLattice._confidence_consensus`: identical grouping, but pick by
highest confidence. -/
def confidence_consensus (lat : WordLattice) : List String :=
  let position_words : List (Nat × List (String × ℚ)) :=
    lat.nodes.foldl (fun acc n => appendAt acc n.position (n.word, n.confidence)) []
  ((position_words.map (fun p => p.1)).insertionSort (· ≤ ·)).map
    (fun pos => (pyMaxBy (fun x => x.2) ("", 0) (lookupD position_words pos)).1)

/-- `WordLattice.get_consensus_transcription`: dispatch on the strategy name,
raising `ValueError` on anything other than `'voting'` / `'confidence'`.  The
method never writes `self`, so the state-passing embedding returns the lattice
unchanged in every branch. -/
def get_consensus_transcription (lat : WordLattice) (strategy : String) :
    Except String (List String) × WordLattice :=
  if strategy == "voting" then (.ok (voting_consensus lat), lat)
  else if strategy == "confidence" then (.ok (confidence_consensus lat), lat)
  else (.error ("Unknown strategy: " ++ strategy), lat)

/-- `WordLattice.should_trust_models_over_reference`: false when no nodes sit
at the position; otherwise take the maximal confidence there, scan for the
(last) word sourced from `'reference'` and the (last) word attaining the
maximal confidence, and trust the models iff `max_confidence >= threshold`
and those two words differ (`None` counts as differing). -/
def should_trust_models_over_reference (lat : WordLattice) (position : Nat)
    (threshold : ℚ) : Bool :=
  match lat.nodes.filter (fun n => n.position == position) with
  | [] => false
  | n0 :: rest =>
    let max_confidence := rest.foldl (fun acc n => max acc n.confidence) n0.confidence
    let scan := (n0 :: rest).foldl
      (fun (p : Option String × Option String) node =>
        ((if "reference" ∈ node.sources then some node.word else p.1),
         (if node.confidence == max_confidence then some node.word else p.2)))
      (none, none)
    decide (threshold ≤ max_confidence ∧ scan.1 ≠ scan.2)

/-- The `max(n.confidence for n in nodes_at_pos)` value read by
`should_trust_models_over_reference` (0 when no nodes sit at the position; the
method returns false in that case before reading it). -/
def maxConfidenceAt (lat : WordLattice) (position : Nat) : ℚ :=
  match lat.nodes.filter (fun n => n.position == position) with
  | [] => 0
  | n0 :: rest => rest.foldl (fun acc n => max acc n.confidence) n0.confidence

/-- A concrete two-variant lattice position used to exercise the trust rule:
the models agree on `good` (confidence 2/3) while the reference word is
`bad` (confidence 1/3). -/
def trustExampleLattice : WordLattice :=
  { nodes := [⟨0, "good", {"m1", "m2"}, 2/3⟩, ⟨0, "bad", {"reference"}, 1/3⟩]
    edges := [] }

/-- A concrete one-position lattice with no node sourced from the reference,
used to exercise the trust rule when the reference word is absent. -/
def noReferenceLattice : WordLattice :=
  { nodes := [⟨2, "hi", {"m1", "m2"}, 2/3⟩, ⟨2, "by", {"m3"}, 1/3⟩]
    edges := [] }

/-! ### Theorems -/

theorem lev_zero_right (eqT : Nat → Nat → Bool) (i : Nat) : lev eqT i 0 = i := by
  cases i <;> simp [lev]

theorem lev_zero_left (eqT : Nat → Nat → Bool) (j : Nat) : lev eqT 0 j = j := by
  cases j <;> simp [lev]

theorem lev_succ_succ (eqT : Nat → Nat → Bool) (i j : Nat) :
    lev eqT (i + 1) (j + 1) =
      if eqT i j then lev eqT i j
      else min (lev eqT i j + 1) (min (lev eqT i (j + 1) + 1) (lev eqT (i + 1) j + 1)) := by
  simp [lev]

theorem opAt_succ_succ (eqT : Nat → Nat → Bool) (i j : Nat) :
    opAt eqT (i + 1) (j + 1) =
      if eqT i j then .M
      else
        if min (lev eqT i j + 1) (min (lev eqT i (j + 1) + 1) (lev eqT (i + 1) j + 1)) =
            lev eqT i j + 1 then .S
        else if min (lev eqT i j + 1) (min (lev eqT i (j + 1) + 1) (lev eqT (i + 1) j + 1)) =
            lev eqT i (j + 1) + 1 then .D
        else .I := by
  simp [opAt]

theorem lev_of_opAt_M (eqT : Nat → Nat → Bool) (i j : Nat)
    (h : opAt eqT (i + 1) (j + 1) = .M) : lev eqT (i + 1) (j + 1) = lev eqT i j := by
  rw [opAt_succ_succ] at h
  rw [lev_succ_succ]
  by_cases heq : eqT i j
  · simp [heq]
  · simp only [heq, if_false] at h
    split_ifs at h <;> simp_all

theorem lev_of_opAt_S (eqT : Nat → Nat → Bool) (i j : Nat)
    (h : opAt eqT (i + 1) (j + 1) = .S) : lev eqT (i + 1) (j + 1) = lev eqT i j + 1 := by
  rw [opAt_succ_succ] at h
  rw [lev_succ_succ]
  by_cases heq : eqT i j
  · simp [heq] at h
  · simp only [heq, Bool.false_eq_true, if_false] at h ⊢
    split_ifs at h with h1 h2
    all_goals simp_all

theorem lev_of_opAt_D (eqT : Nat → Nat → Bool) (i j : Nat)
    (h : opAt eqT (i + 1) (j + 1) = .D) : lev eqT (i + 1) (j + 1) = lev eqT i (j + 1) + 1 := by
  rw [opAt_succ_succ] at h
  rw [lev_succ_succ]
  by_cases heq : eqT i j
  · simp [heq] at h
  · simp only [heq, Bool.false_eq_true, if_false] at h ⊢
    split_ifs at h with h1 h2
    all_goals simp_all

theorem lev_of_opAt_I (eqT : Nat → Nat → Bool) (i j : Nat)
    (h : opAt eqT (i + 1) (j + 1) = .I) : lev eqT (i + 1) (j + 1) = lev eqT (i + 1) j + 1 := by
  rw [opAt_succ_succ] at h
  rw [lev_succ_succ]
  by_cases heq : eqT i j
  · simp [heq] at h
  · simp only [heq, Bool.false_eq_true, if_false] at h ⊢
    by_cases h1 : (lev eqT i j + 1) ⊓ ((lev eqT i (j + 1) + 1) ⊓ (lev eqT (i + 1) j + 1)) =
        lev eqT i j + 1
    · rw [if_pos h1] at h
      exact absurd h (by decide)
    · rw [if_neg h1] at h
      by_cases h2 : (lev eqT i j + 1) ⊓ ((lev eqT i (j + 1) + 1) ⊓ (lev eqT (i + 1) j + 1)) =
          lev eqT i (j + 1) + 1
      · rw [if_pos h2] at h
        exact absurd h (by decide)
      · omega

theorem countOps_sum (eqT : Nat → Nat → Bool) (i j : Nat) :
    (countOps eqT i j).substitutions + (countOps eqT i j).deletions +
      (countOps eqT i j).insertions = lev eqT i j := by
  induction i, j using countOps.induct eqT with
  | case1 => simp [countOps, lev]
  | case2 j ih =>
    simp only [countOps]
    rw [lev_zero_left] at ih ⊢
    omega
  | case3 i ih =>
    simp only [countOps]
    rw [lev_zero_right] at ih ⊢
    omega
  | case4 i j hop ih =>
    simp only [countOps, hop]
    rw [lev_of_opAt_M eqT i j hop]
    exact ih
  | case5 i j hop ih =>
    simp only [countOps, hop]
    rw [lev_of_opAt_S eqT i j hop]
    omega
  | case6 i j hop ih =>
    simp only [countOps, hop]
    rw [lev_of_opAt_D eqT i j hop]
    omega
  | case7 i j hop ih =>
    simp only [countOps, hop]
    rw [lev_of_opAt_I eqT i j hop]
    omega

theorem lev_no_match (eqT : Nat → Nat → Bool) (m n : Nat)
    (h : ∀ i < m, ∀ j < n, eqT i j = false) :
    ∀ i, i ≤ m → ∀ j, j ≤ n → lev eqT i j = max i j := by
  have key : ∀ k i j, i + j = k → i ≤ m → j ≤ n → lev eqT i j = max i j := by
    intro k
    induction k using Nat.strong_induction_on with
    | _ k ih =>
      intro i j hk him hjn
      match i, j with
      | i, 0 => simp [lev_zero_right]
      | 0, j + 1 => simp [lev_zero_left]
      | i + 1, j + 1 =>
        have h1 : lev eqT i j = max i j := ih (i + j) (by omega) i j rfl (by omega) (by omega)
        have h2 : lev eqT i (j + 1) = max i (j + 1) :=
          ih (i + j + 1) (by omega) i (j + 1) (by omega) (by omega) (by omega)
        have h3 : lev eqT (i + 1) j = max (i + 1) j :=
          ih (i + j + 1) (by omega) (i + 1) j (by omega) (by omega) (by omega)
        have he : eqT i j = false := h i (by omega) j (by omega)
        rw [lev_succ_succ]
        simp only [he, Bool.false_eq_true, if_false, h1, h2, h3]
        omega
  intro i him j hjn
  exact key (i + j) i j rfl him hjn

theorem countOps_no_match_diag (eqT : Nat → Nat → Bool) (L : Nat)
    (h : ∀ i < L, ∀ j < L, eqT i j = false) :
    ∀ k, k ≤ L → countOps eqT k k = ⟨k, 0, 0⟩ := by
  intro k
  induction k with
  | zero => intro _; simp [countOps]
  | succ k ihk =>
    intro hkL
    have he : eqT k k = false := h k (by omega) k (by omega)
    have h1 : lev eqT k k = max k k := lev_no_match eqT L L h k (by omega) k (by omega)
    have h2 : lev eqT k (k + 1) = max k (k + 1) :=
      lev_no_match eqT L L h k (by omega) (k + 1) (by omega)
    have h3 : lev eqT (k + 1) k = max (k + 1) k :=
      lev_no_match eqT L L h (k + 1) (by omega) k (by omega)
    have hop : opAt eqT (k + 1) (k + 1) = .S := by
      rw [opAt_succ_succ]
      simp only [he, Bool.false_eq_true, if_false, h1, h2, h3]
      rw [if_pos (by omega :
        min (max k k + 1) (min (max k (k + 1) + 1) (max (k + 1) k + 1)) = max k k + 1)]
    simp only [countOps, hop]
    rw [ihk (by omega)]

theorem lower_getD (l : List String) (i : Nat) :
    lower (l.getD i "") = (l.map lower).getD i "" := by
  rw [List.getD_eq_getElem?_getD, List.getD_eq_getElem?_getD, List.getElem?_map]
  cases l[i]? <;> rfl

/-- Concrete evaluation: lowercase-vs-uppercase singletons differ for the
case-sensitive distance but match for the case-folded counts. -/
theorem csw_eval_A_a : compute_standard_wer ["A"] ["a"] = ⟨1, 1, 1, 0, 0, 0⟩ := by
  have e1 : tokEqFold ["A"] ["a"] 0 0 = true := by decide
  have e2 : tokEqRaw ["A"] ["a"] 0 0 = false := by decide
  simp [compute_standard_wer, editdistance_eval, get_alignment_details,
    lev, countOps, opAt, e1, e2]

/-- Concrete evaluation used by the case-folding counterexample. -/
theorem csw_eval_B_b : compute_standard_wer ["B"] ["b"] = ⟨1, 1, 1, 0, 0, 0⟩ := by
  have e1 : tokEqFold ["B"] ["b"] 0 0 = true := by decide
  have e2 : tokEqRaw ["B"] ["b"] 0 0 = false := by decide
  simp [compute_standard_wer, editdistance_eval, get_alignment_details,
    lev, countOps, opAt, e1, e2]

/-- Concrete evaluation on already-lowercased input. -/
theorem csw_eval_b_b : compute_standard_wer ["b"] ["b"] = ⟨0, 0, 1, 0, 0, 0⟩ := by
  have e1 : tokEqFold ["b"] ["b"] 0 0 = true := by decide
  have e2 : tokEqRaw ["b"] ["b"] 0 0 = true := by decide
  simp [compute_standard_wer, editdistance_eval, get_alignment_details,
    lev, countOps, opAt, e1, e2]

/-- **C1 (amended).** The substitution/deletion/insertion counts of
`compute_standard_wer` always sum to the distance of the case-folded alignment
DP of `_get_alignment_details`, while the reported `distance` field is the
separately computed case-sensitive `editdistance` value; the counts therefore
sum to `distance` exactly when the case-folded and case-sensitive edit
distances coincide. -/
theorem wer_counts_sum_eq_folded_distance (hyp ref : List String) :
    (compute_standard_wer hyp ref).substitutions + (compute_standard_wer hyp ref).deletions +
        (compute_standard_wer hyp ref).insertions =
      lev (tokEqFold hyp ref) hyp.length ref.length ∧
    (compute_standard_wer hyp ref).distance = lev (tokEqRaw hyp ref) hyp.length ref.length :=
  ⟨countOps_sum (tokEqFold hyp ref) hyp.length ref.length, rfl⟩

/-- **C1 (counterexample).** For hypothesis `["A"]` and reference `["a"]` the
case-folded backtrace yields counts (0, 0, 0) while the reported distance is
the case-sensitive value 1, so the counts do not sum to the distance. -/
theorem wer_counts_sum_ne_distance_example :
    ¬ ((compute_standard_wer ["A"] ["a"]).substitutions +
        (compute_standard_wer ["A"] ["a"]).deletions +
        (compute_standard_wer ["A"] ["a"]).insertions =
      (compute_standard_wer ["A"] ["a"]).distance) := by
  rw [csw_eval_A_a]
  decide

/-- **C2 (amended).** The operation counts (and the reference length) of
`compute_standard_wer` are invariant under replacing any token by a case
variant: they only depend on the case-folded inputs.  (The `distance` and
`wer` fields are *not* invariant, as the counterexample shows.) -/
theorem wer_counts_case_insensitive (hyp hyp' ref ref' : List String)
    (h1 : hyp.map lower = hyp'.map lower) (h2 : ref.map lower = ref'.map lower) :
    (compute_standard_wer hyp ref).substitutions =
        (compute_standard_wer hyp' ref').substitutions ∧
    (compute_standard_wer hyp ref).deletions = (compute_standard_wer hyp' ref').deletions ∧
    (compute_standard_wer hyp ref).insertions = (compute_standard_wer hyp' ref').insertions ∧
    (compute_standard_wer hyp ref).reference_length =
        (compute_standard_wer hyp' ref').reference_length := by
  have hl1 : hyp.length = hyp'.length := by
    have := congrArg List.length h1
    simpa using this
  have hl2 : ref.length = ref'.length := by
    have := congrArg List.length h2
    simpa using this
  have hfun : tokEqFold hyp ref = tokEqFold hyp' ref' := by
    funext i j
    unfold tokEqFold
    rw [lower_getD, lower_getD, lower_getD, lower_getD, h1, h2]
  have hdet : get_alignment_details hyp ref = get_alignment_details hyp' ref' := by
    unfold get_alignment_details
    rw [hfun, hl1, hl2]
  exact ⟨congrArg OpCounts.substitutions hdet, congrArg OpCounts.deletions hdet,
    congrArg OpCounts.insertions hdet, hl2⟩

/-- Witness for the amended C2 at concrete case variants. -/
theorem wer_counts_case_insensitive_witness :
    (["Ab"].map lower = ["aB"].map lower) ∧ (["X"].map lower = ["x"].map lower) ∧
    ((compute_standard_wer ["Ab"] ["X"]).substitutions =
        (compute_standard_wer ["aB"] ["x"]).substitutions ∧
      (compute_standard_wer ["Ab"] ["X"]).deletions =
        (compute_standard_wer ["aB"] ["x"]).deletions ∧
      (compute_standard_wer ["Ab"] ["X"]).insertions =
        (compute_standard_wer ["aB"] ["x"]).insertions ∧
      (compute_standard_wer ["Ab"] ["X"]).reference_length =
        (compute_standard_wer ["aB"] ["x"]).reference_length) :=
  ⟨by decide, by decide,
    wer_counts_case_insensitive ["Ab"] ["aB"] ["X"] ["x"] (by decide) (by decide)⟩

/-- **C2 (counterexample).** The full record is *not* invariant under case
folding of the inputs: on `["B"]` vs `["b"]` the distance (and hence the wer)
changes when the inputs are lowercased. -/
theorem wer_record_not_case_insensitive_example :
    compute_standard_wer ["B"] ["b"] ≠
      compute_standard_wer (["B"].map lower) (["b"].map lower) := by
  have hm1 : ["B"].map lower = ["b"] := by decide
  have hm2 : ["b"].map lower = ["b"] := by decide
  rw [hm1, hm2, csw_eval_B_b, csw_eval_b_b]
  decide

/-- **C5.** Two equal-length sequences (length > 0) sharing no tokens under
case-folded comparison produce distance = length, substitutions = length, no
deletions or insertions, and wer = 1. -/
theorem total_mismatch_record (hyp ref : List String)
    (hlen : hyp.length = ref.length) (hpos : 0 < ref.length)
    (hdisj : ∀ i < hyp.length, ∀ j < ref.length,
      lower (hyp.getD i "") ≠ lower (ref.getD j "")) :
    compute_standard_wer hyp ref =
      ⟨1, ref.length, ref.length, ref.length, 0, 0⟩ := by
  have hfold : ∀ i < hyp.length, ∀ j < ref.length, tokEqFold hyp ref i j = false := by
    intro i hi j hj
    simp only [tokEqFold, beq_eq_false_iff_ne, ne_eq]
    exact hdisj i hi j hj
  have hraw : ∀ i < hyp.length, ∀ j < ref.length, tokEqRaw hyp ref i j = false := by
    intro i hi j hj
    simp only [tokEqRaw, beq_eq_false_iff_ne, ne_eq]
    intro hcontra
    exact hdisj i hi j hj (by rw [hcontra])
  have hdist : lev (tokEqRaw hyp ref) hyp.length ref.length = ref.length := by
    rw [lev_no_match (tokEqRaw hyp ref) hyp.length ref.length hraw hyp.length le_rfl
      ref.length le_rfl]
    omega
  have hcounts : countOps (tokEqFold hyp ref) hyp.length ref.length =
      ⟨ref.length, 0, 0⟩ := by
    rw [hlen]
    exact countOps_no_match_diag (tokEqFold hyp ref) ref.length
      (fun i hi j hj => hfold i (by omega) j hj) ref.length le_rfl
  have hwer : ((ref.length : ℚ)) / ((ref.length : ℚ)) = 1 :=
    div_self (Nat.cast_ne_zero.2 (by omega))
  simp only [compute_standard_wer, editdistance_eval, get_alignment_details, hdist, hcounts,
    if_pos hpos, WERRecord.mk.injEq]
  simp [hwer]

/-- Witness for C5 at `["x"]` vs `["y"]`. -/
theorem total_mismatch_record_witness :
    ((["x"] : List String).length = (["y"] : List String).length) ∧
    (0 < (["y"] : List String).length) ∧
    (∀ i < (["x"] : List String).length, ∀ j < (["y"] : List String).length,
      lower ((["x"] : List String).getD i "") ≠ lower ((["y"] : List String).getD j "")) ∧
    compute_standard_wer ["x"] ["y"] = ⟨1, 1, 1, 1, 0, 0⟩ :=
  ⟨by decide, by decide, by decide,
    total_mismatch_record ["x"] ["y"] (by decide) (by decide) (by decide)⟩

/-- **C8.** WER is 0 for an empty reference (no division error is possible in
the embedding: the quotient is guarded), and equals distance / reference
length for a non-empty reference. -/
theorem wer_division_guarded (hyp ref : List String) :
    ((compute_standard_wer hyp []).wer = 0) ∧
    (0 < ref.length →
      (compute_standard_wer hyp ref).wer =
        ((compute_standard_wer hyp ref).distance : ℚ) / (ref.length : ℚ)) := by
  constructor
  · simp [compute_standard_wer]
  · intro h
    simp [compute_standard_wer, if_pos h]

/-- Witness for C8 at a non-empty reference. -/
theorem wer_division_guarded_witness :
    ((compute_standard_wer ["a"] []).wer = 0) ∧
    (0 < (["b"] : List String).length) ∧
    ((compute_standard_wer ["a"] ["b"]).wer =
      ((compute_standard_wer ["a"] ["b"]).distance : ℚ) / (((["b"] : List String).length : ℚ))) :=
  ⟨(wer_division_guarded ["a"] ["b"]).1, by decide,
    (wer_division_guarded ["a"] ["b"]).2 (by decide)⟩

theorem le_foldl_max_conf (l : List LatticeNode) (a : ℚ) :
    a ≤ l.foldl (fun acc n => max acc n.confidence) a := by
  induction l generalizing a with
  | nil => simp
  | cons x xs ih =>
    simp only [List.foldl_cons]
    exact le_trans (le_max_left a x.confidence) (ih (max a x.confidence))

theorem mem_le_foldl_max_conf (l : List LatticeNode) (a : ℚ) (x : LatticeNode) (hx : x ∈ l) :
    x.confidence ≤ l.foldl (fun acc n => max acc n.confidence) a := by
  induction l generalizing a with
  | nil => cases hx
  | cons y ys ih =>
    simp only [List.foldl_cons]
    rcases List.mem_cons.1 hx with rfl | hmem
    · exact le_trans (le_max_right a x.confidence) (le_foldl_max_conf ys _)
    · exact ih (max a y.confidence) hmem

theorem foldl_max_conf_attained (l : List LatticeNode) (a : ℚ) :
    l.foldl (fun acc n => max acc n.confidence) a = a ∨
      ∃ x ∈ l, x.confidence = l.foldl (fun acc n => max acc n.confidence) a := by
  induction l generalizing a with
  | nil => left; rfl
  | cons y ys ih =>
    simp only [List.foldl_cons]
    rcases ih (max a y.confidence) with h | ⟨x, hx, hxe⟩
    · rcases max_choice a y.confidence with hm | hm
      · left
        rw [h, hm]
      · right
        exact ⟨y, List.mem_cons_self y ys, by rw [h, hm]⟩
    · right
      exact ⟨x, List.mem_cons_of_mem y hx, hxe⟩

theorem trust_scan_fst_none (mc : ℚ) (l : List LatticeNode)
    (p : Option String × Option String) (hall : ∀ x ∈ l, "reference" ∉ x.sources) :
    (l.foldl (fun (p : Option String × Option String) node =>
      ((if "reference" ∈ node.sources then some node.word else p.1),
       (if node.confidence == mc then some node.word else p.2))) p).1 = p.1 := by
  induction l generalizing p with
  | nil => rfl
  | cons y ys ih =>
    simp only [List.foldl_cons]
    rw [ih _ (fun x hx => hall x (List.mem_cons_of_mem y hx))]
    simp [hall y (List.mem_cons_self y ys)]

theorem trust_scan_snd_isSome_preserved (mc : ℚ) (l : List LatticeNode)
    (p : Option String × Option String) (hp : p.2.isSome) :
    (l.foldl (fun (p : Option String × Option String) node =>
      ((if "reference" ∈ node.sources then some node.word else p.1),
       (if node.confidence == mc then some node.word else p.2))) p).2.isSome := by
  induction l generalizing p with
  | nil => exact hp
  | cons y ys ih =>
    simp only [List.foldl_cons]
    apply ih
    by_cases hc : y.confidence == mc
    · simp [hc]
    · simpa [hc] using hp

theorem trust_scan_snd_isSome (mc : ℚ) (l : List LatticeNode)
    (p : Option String × Option String) (hex : ∃ x ∈ l, x.confidence = mc) :
    (l.foldl (fun (p : Option String × Option String) node =>
      ((if "reference" ∈ node.sources then some node.word else p.1),
       (if node.confidence == mc then some node.word else p.2))) p).2.isSome := by
  induction l generalizing p with
  | nil =>
    obtain ⟨x, hx, _⟩ := hex
    cases hx
  | cons y ys ih =>
    simp only [List.foldl_cons]
    obtain ⟨x, hx, hxe⟩ := hex
    rcases List.mem_cons.1 hx with rfl | hmem
    · apply trust_scan_snd_isSome_preserved
      simp [hxe]
    · exact ih _ ⟨x, hmem, hxe⟩

/-- **C6.** For a fixed lattice and position, a true trust result at threshold
`t2` forces the maximal confidence at that position to be at least `t2`, and
(for `t1 ≤ t2`) the result at the lower threshold `t1` is also true; the
result is false whenever no nodes exist at the position. -/
theorem trust_threshold_monotone (lat : WordLattice) (position : Nat) (t1 t2 : ℚ)
    (h12 : t1 ≤ t2) :
    (should_trust_models_over_reference lat position t2 = true →
      t2 ≤ maxConfidenceAt lat position ∧
        should_trust_models_over_reference lat position t1 = true) ∧
    (lat.nodes.filter (fun n => n.position == position) = [] →
      should_trust_models_over_reference lat position t1 = false) := by
  constructor
  · intro h2
    cases hfil : lat.nodes.filter (fun n => n.position == position) with
    | nil =>
      rw [should_trust_models_over_reference, hfil] at h2
      cases h2
    | cons n0 rest =>
      rw [should_trust_models_over_reference, hfil] at h2
      rw [should_trust_models_over_reference, hfil]
      rw [maxConfidenceAt, hfil]
      simp only [decide_eq_true_eq] at h2
      exact ⟨h2.1, by
        simp only [decide_eq_true_eq]
        exact ⟨le_trans h12 h2.1, h2.2⟩⟩
  · intro hfil
    rw [should_trust_models_over_reference, hfil]

/-- Witness for C6 on `trustExampleLattice` with thresholds 1/3 ≤ 1/2. -/
theorem trust_threshold_monotone_witness :
    (should_trust_models_over_reference trustExampleLattice 0 (1/2) = true →
      (1 : ℚ)/2 ≤ maxConfidenceAt trustExampleLattice 0 ∧
        should_trust_models_over_reference trustExampleLattice 0 (1/3) = true) ∧
    (trustExampleLattice.nodes.filter (fun n => n.position == 0) = [] →
      should_trust_models_over_reference trustExampleLattice 0 (1/3) = false) :=
  trust_threshold_monotone trustExampleLattice 0 (1/3) (1/2) (by norm_num)

/-- **C9.** If some node exists at the position, none of them carries the
`'reference'` sentinel, and some node reaches the threshold, then the trust
rule fires: the absent reference word (`None`) differs from the
max-confidence consensus word. -/
theorem trust_true_without_reference (lat : WordLattice) (position : Nat) (t : ℚ)
    (hne : lat.nodes.filter (fun n => n.position == position) ≠ [])
    (href : ∀ n ∈ lat.nodes, n.position = position → "reference" ∉ n.sources)
    (hconf : ∃ n ∈ lat.nodes, n.position = position ∧ t ≤ n.confidence) :
    should_trust_models_over_reference lat position t = true := by
  cases hfil : lat.nodes.filter (fun n => n.position == position) with
  | nil => exact absurd hfil hne
  | cons n0 rest =>
    have hsub : ∀ x ∈ n0 :: rest, x ∈ lat.nodes ∧ x.position = position := by
      intro x hx
      rw [← hfil] at hx
      have hm := List.mem_filter.1 hx
      exact ⟨hm.1, by simpa using hm.2⟩
    obtain ⟨n, hn, hnpos, hnle⟩ := hconf
    have hnfil : n ∈ n0 :: rest := by
      rw [← hfil]
      exact List.mem_filter.2 ⟨hn, by simpa using hnpos⟩
    have hmcle : t ≤ rest.foldl (fun acc n => max acc n.confidence) n0.confidence := by
      refine le_trans hnle ?_
      rcases List.mem_cons.1 hnfil with rfl | hmem
      · exact le_foldl_max_conf rest n.confidence
      · exact mem_le_foldl_max_conf rest n0.confidence n hmem
    have hex : ∃ x ∈ n0 :: rest,
        x.confidence = rest.foldl (fun acc n => max acc n.confidence) n0.confidence := by
      rcases foldl_max_conf_attained rest n0.confidence with h | ⟨x, hx, hxe⟩
      · exact ⟨n0, List.mem_cons_self n0 rest, h.symm⟩
      · exact ⟨x, List.mem_cons_of_mem n0 hx, hxe⟩
    rw [should_trust_models_over_reference, hfil]
    apply decide_eq_true
    refine ⟨hmcle, ?_⟩
    rw [trust_scan_fst_none _ _ _ (fun x hx => href x (hsub x hx).1 (hsub x hx).2)]
    intro hcontra
    have hsnd := trust_scan_snd_isSome
      (rest.foldl (fun acc n => max acc n.confidence) n0.confidence)
      (n0 :: rest) (none, none) hex
    rw [← hcontra] at hsnd
    simp at hsnd

/-- Witness for C9: one position, two model words, no reference word. -/
theorem trust_true_without_reference_witness :
    (noReferenceLattice.nodes.filter (fun n => n.position == 2) ≠ [] ∧
      (∀ n ∈ noReferenceLattice.nodes, n.position = 2 → "reference" ∉ n.sources) ∧
      (∃ n ∈ noReferenceLattice.nodes, n.position = 2 ∧ (1 : ℚ)/2 ≤ n.confidence)) ∧
    should_trust_models_over_reference noReferenceLattice 2 (1/2) = true :=
  ⟨⟨by simp [noReferenceLattice], by simp [noReferenceLattice],
      ⟨⟨2, "hi", {"m1", "m2"}, 2/3⟩, List.mem_cons_self _ _, rfl, by norm_num⟩⟩,
    trust_true_without_reference noReferenceLattice 2 (1/2) (by simp [noReferenceLattice])
      (by simp [noReferenceLattice])
      ⟨⟨2, "hi", {"m1", "m2"}, 2/3⟩, List.mem_cons_self _ _, rfl, by norm_num⟩⟩

/-- **C7.** `get_consensus_transcription` fails exactly when the strategy is
neither `'voting'` nor `'confidence'`, and the lattice state (nodes and
edges) is returned unchanged in every branch, in particular on the error. -/
theorem consensus_strategy_error_iff (lat : WordLattice) (strategy : String) :
    ((∃ e, (get_consensus_transcription lat strategy).1 = Except.error e) ↔
      (strategy ≠ "voting" ∧ strategy ≠ "confidence")) ∧
    (get_consensus_transcription lat strategy).2.nodes = lat.nodes ∧
    (get_consensus_transcription lat strategy).2.edges = lat.edges := by
  unfold get_consensus_transcription
  by_cases h1 : strategy = "voting"
  · subst h1
    simp
  · by_cases h2 : strategy = "confidence"
    · subst h2
      simp
    · simp [h1, h2]

theorem keys_map_of_key_preserving {α β : Type} (G : α → β) (pw : List (Nat × List α)) :
    (pw.map (fun e => (e.1, e.2.map G))).map (fun e => e.1) = pw.map (fun e => e.1) := by
  rw [List.map_map]
  rfl

theorem appendAt_map {α β : Type} (G : α → β) (acc : List (Nat × List α)) (k : Nat) (v : α) :
    appendAt (acc.map (fun e => (e.1, e.2.map G))) k (G v) =
      (appendAt acc k v).map (fun e => (e.1, e.2.map G)) := by
  unfold appendAt
  have hany : (acc.map (fun e => (e.1, e.2.map G))).any (fun p => p.1 == k) =
      acc.any (fun p => p.1 == k) := by
    induction acc with
    | nil => rfl
    | cons a l iha => simp only [List.map_cons, List.any_cons, iha]
  rw [hany]
  by_cases h : acc.any (fun p => p.1 == k)
  · rw [if_pos h, if_pos h, List.map_map, List.map_map]
    apply List.map_congr_left
    intro e _
    by_cases hk : e.1 == k
    · simp only [Function.comp_apply, hk, if_true]
      simp [List.map_append]
    · simp only [Function.comp_apply, hk, if_false]
      simp
  · rw [if_neg h, if_neg h, List.map_append]
    rfl

theorem foldl_appendAt_map {α β : Type} (G : α → β) (key : LatticeNode → Nat)
    (valA : LatticeNode → α) (valB : LatticeNode → β) (nodes : List LatticeNode)
    (hval : ∀ n ∈ nodes, valB n = G (valA n)) :
    ∀ acc : List (Nat × List α),
      nodes.foldl (fun a n => appendAt a (key n) (valB n))
          (acc.map (fun e => (e.1, e.2.map G))) =
        (nodes.foldl (fun a n => appendAt a (key n) (valA n)) acc).map
          (fun e => (e.1, e.2.map G)) := by
  induction nodes with
  | nil => intro acc; rfl
  | cons n ns ih =>
    intro acc
    simp only [List.foldl_cons]
    rw [hval n (List.mem_cons_self n ns), appendAt_map]
    exact ih (fun x hx => hval x (List.mem_cons_of_mem n hx)) _

theorem lookupD_map {α β : Type} (G : α → β) (pw : List (Nat × List α)) (k : Nat) :
    lookupD (pw.map (fun e => (e.1, e.2.map G))) k = (lookupD pw k).map G := by
  unfold lookupD
  rw [List.find?_map]
  have : ((fun (p : Nat × List β) => p.1 == k) ∘ fun e : Nat × List α => (e.1, e.2.map G)) =
      fun p : Nat × List α => p.1 == k := rfl
  rw [this]
  cases pw.find? (fun p => p.1 == k) <;> rfl

theorem pyMaxBy_snd_map (g : Nat → ℚ) (hg : ∀ a b : Nat, a < b ↔ g a < g b)
    (l : List (String × Nat)) :
    (pyMaxBy (fun x => x.2) ("", (0 : ℚ)) (l.map (fun q => (q.1, g q.2)))).1 =
      (pyMaxBy (fun x => x.2) ("", (0 : Nat)) l).1 := by
  cases l with
  | nil => rfl
  | cons x xs =>
    have key : ∀ (ys : List (String × Nat)) (a : String × Nat),
        (ys.map (fun q => (q.1, g q.2))).foldl
            (fun acc y => if acc.2 < y.2 then y else acc) (a.1, g a.2) =
          ((ys.foldl (fun acc y => if acc.2 < y.2 then y else acc) a).1,
           g ((ys.foldl (fun acc y => if acc.2 < y.2 then y else acc) a).2)) := by
      intro ys
      induction ys with
      | nil => intro a; rfl
      | cons y ys ihy =>
        intro a
        simp only [List.map_cons, List.foldl_cons]
        by_cases h : a.2 < y.2
        · rw [if_pos ((hg a.2 y.2).1 h), if_pos h]
          exact ihy y
        · rw [if_neg (fun hc => h ((hg a.2 y.2).2 hc)), if_neg h]
          exact ihy a
    simp only [pyMaxBy, List.map_cons]
    rw [key xs x]

theorem align_all_sequences_length_pos (hypotheses : List (String × List String))
    (reference : List String) : 0 < (align_all_sequences hypotheses reference).length := by
  unfold align_all_sequences dictInsert
  simp only [List.length_map]
  split
  · next h =>
    rw [List.length_map]
    cases hypotheses with
    | nil => simp at h
    | cons a l => simp
  · simp

theorem foldl_append_eq_join {γ : Type} (f : Nat → List γ) (l : List Nat) :
    ∀ init : List γ, l.foldl (fun ns pos => ns ++ f pos) init = init ++ (l.map f).flatten := by
  induction l with
  | nil => intro init; simp
  | cons x xs ih =>
    intro init
    simp only [List.foldl_cons, List.map_cons, List.flatten_cons]
    rw [ih, List.append_assoc]

theorem construct_nodes_confidence (alignments : List (String × List TraceEntry))
    (reference : List String) :
    ∀ n ∈ (construct_lattice alignments reference).nodes,
      n.confidence = (n.sources.card : ℚ) / (alignments.length : ℚ) := by
  intro n hn
  unfold construct_lattice at hn
  simp only at hn
  rw [foldl_append_eq_join] at hn
  simp only [List.nil_append] at hn
  obtain ⟨l, hl, hnl⟩ := List.mem_flatten.1 hn
  obtain ⟨pos, _, rfl⟩ := List.mem_map.1 hl
  obtain ⟨ws, _, rfl⟩ := List.mem_map.1 hnl
  rfl

/-- Every node built by `_construct_lattice` (and hence by
`build_from_hypotheses`) carries `confidence = |sources| / len(alignments)`
for the one fixed alignment count of the lattice. -/
theorem voting_eq_confidence_of_inv (lat : WordLattice) (N : Nat) (hN : 0 < N)
    (hinv : ∀ n ∈ lat.nodes, n.confidence = (n.sources.card : ℚ) / (N : ℚ)) :
    voting_consensus lat = confidence_consensus lat := by
  have hNQ : (0 : ℚ) < (N : ℚ) := by exact_mod_cast hN
  have hg : ∀ a b : Nat, a < b ↔ (a : ℚ) / (N : ℚ) < (b : ℚ) / (N : ℚ) := by
    intro a b
    rw [div_lt_div_iff_of_pos_right hNQ]
    exact_mod_cast Iff.rfl
  simp only [voting_consensus, confidence_consensus]
  have hfold :
      lat.nodes.foldl (fun acc n => appendAt acc n.position (n.word, n.confidence))
          ([] : List (Nat × List (String × ℚ))) =
        (lat.nodes.foldl (fun acc n => appendAt acc n.position (n.word, n.sources.card))
            ([] : List (Nat × List (String × Nat)))).map
          (fun e => (e.1, e.2.map (fun q : String × Nat => (q.1, (q.2 : ℚ) / (N : ℚ))))) := by
    have := foldl_appendAt_map (fun q : String × Nat => (q.1, (q.2 : ℚ) / (N : ℚ)))
      (fun n => n.position) (fun n => (n.word, n.sources.card))
      (fun n => (n.word, n.confidence)) lat.nodes
      (fun n hn => by simp only [hinv n hn]) []
    simpa using this
  rw [hfold, keys_map_of_key_preserving]
  apply List.map_congr_left
  intro pos _
  rw [lookupD_map]
  exact (pyMaxBy_snd_map (fun c => (c : ℚ) / (N : ℚ)) hg _).symm

/-- **C3.** For every lattice built by `build_from_hypotheses`, the
`'confidence'` consensus strategy returns exactly the same transcription (and
the same state) as the `'voting'` strategy: confidence is `|sources| /
len(alignments)` with one fixed positive denominator, so ranking by
confidence is ranking by source count. -/
theorem confidence_strategy_eq_voting_strategy
    (hypotheses : List (String × List String)) (reference : List String) :
    get_consensus_transcription (build_from_hypotheses hypotheses reference) "confidence" =
      get_consensus_transcription (build_from_hypotheses hypotheses reference) "voting" := by
  have hinner : voting_consensus (build_from_hypotheses hypotheses reference) =
      confidence_consensus (build_from_hypotheses hypotheses reference) :=
    voting_eq_confidence_of_inv _ (align_all_sequences hypotheses reference).length
      (align_all_sequences_length_pos hypotheses reference)
      (construct_nodes_confidence (align_all_sequences hypotheses reference) reference)
  simp [get_consensus_transcription, hinner]

theorem keys_appendAt_mem {α : Type} (acc : List (Nat × List α)) (k : Nat) (v : α) (p : Nat) :
    p ∈ (appendAt acc k v).map (fun e => e.1) ↔
      p ∈ acc.map (fun e => e.1) ∨ p = k := by
  unfold appendAt
  by_cases h : acc.any (fun q => q.1 == k)
  · rw [if_pos h]
    have hk : k ∈ acc.map (fun e => e.1) := by
      obtain ⟨q, hq, hqe⟩ := List.any_eq_true.1 h
      exact List.mem_map.2 ⟨q, hq, by simpa using hqe⟩
    have hkeys : (acc.map (fun e => if e.1 == k then (e.1, e.2 ++ [v]) else e)).map
        (fun e => e.1) = acc.map (fun e => e.1) := by
      rw [List.map_map]
      apply List.map_congr_left
      intro e _
      simp only [Function.comp_apply]
      split
      · rfl
      · rfl
    rw [hkeys]
    constructor
    · exact Or.inl
    · rintro (hp | rfl)
      · exact hp
      · exact hk
  · rw [if_neg h, List.map_append]
    simp

theorem keys_appendAt_nodup {α : Type} (acc : List (Nat × List α)) (k : Nat) (v : α)
    (hnd : (acc.map (fun e => e.1)).Nodup) :
    ((appendAt acc k v).map (fun e => e.1)).Nodup := by
  unfold appendAt
  by_cases h : acc.any (fun q => q.1 == k)
  · rw [if_pos h]
    have hkeys : (acc.map (fun e => if e.1 == k then (e.1, e.2 ++ [v]) else e)).map
        (fun e => e.1) = acc.map (fun e => e.1) := by
      rw [List.map_map]
      apply List.map_congr_left
      intro e _
      simp only [Function.comp_apply]
      split
      · rfl
      · rfl
    rwa [hkeys]
  · rw [if_neg h, List.map_append]
    have hk : k ∉ acc.map (fun e => e.1) := by
      intro hk
      obtain ⟨q, hq, hqe⟩ := List.mem_map.1 hk
      exact h (List.any_eq_true.2 ⟨q, hq, by simp [hqe]⟩)
    simp only [List.map_cons, List.map_nil]
    rw [List.nodup_append]
    exact ⟨hnd, List.nodup_singleton k, by simpa using hk⟩

theorem foldl_appendAt_keys_mem {α : Type} (key : LatticeNode → Nat) (val : LatticeNode → α)
    (nodes : List LatticeNode) :
    ∀ (acc : List (Nat × List α)) (p : Nat),
      p ∈ (nodes.foldl (fun a n => appendAt a (key n) (val n)) acc).map (fun e => e.1) ↔
        p ∈ acc.map (fun e => e.1) ∨ p ∈ nodes.map key := by
  induction nodes with
  | nil => intro acc p; simp
  | cons n ns ih =>
    intro acc p
    simp only [List.foldl_cons, List.map_cons, List.mem_cons]
    rw [ih, keys_appendAt_mem]
    tauto

theorem foldl_appendAt_keys_nodup {α : Type} (key : LatticeNode → Nat) (val : LatticeNode → α)
    (nodes : List LatticeNode) :
    ∀ acc : List (Nat × List α), (acc.map (fun e => e.1)).Nodup →
      ((nodes.foldl (fun a n => appendAt a (key n) (val n)) acc).map (fun e => e.1)).Nodup := by
  induction nodes with
  | nil => intro acc h; exact h
  | cons n ns ih =>
    intro acc h
    simp only [List.foldl_cons]
    exact ih _ (keys_appendAt_nodup acc (key n) (val n) h)

theorem appendAt_entries {α : Type} (P : Nat → α → Prop) (acc : List (Nat × List α))
    (k : Nat) (v : α) (hacc : ∀ e ∈ acc, e.2 ≠ [] ∧ ∀ w ∈ e.2, P e.1 w) (hv : P k v) :
    ∀ e ∈ appendAt acc k v, e.2 ≠ [] ∧ ∀ w ∈ e.2, P e.1 w := by
  unfold appendAt
  by_cases h : acc.any (fun q => q.1 == k)
  · rw [if_pos h]
    intro e he
    obtain ⟨q, hq, hqe⟩ := List.mem_map.1 he
    by_cases hk : q.1 == k
    · rw [if_pos hk] at hqe
      subst hqe
      refine ⟨by simp, ?_⟩
      intro w hw
      rcases List.mem_append.1 hw with hw | hw
      · exact (hacc q hq).2 w hw
      · have : w = v := by simpa using hw
        subst this
        have : q.1 = k := by simpa using hk
        rw [this]
        exact hv
    · rw [if_neg hk] at hqe
      subst hqe
      exact hacc q hq
  · rw [if_neg h]
    intro e he
    rcases List.mem_append.1 he with he | he
    · exact hacc e he
    · have : e = (k, [v]) := by simpa using he
      subst this
      exact ⟨by simp, by simpa using hv⟩

theorem foldl_appendAt_entries {α : Type} (P : Nat → α → Prop) (key : LatticeNode → Nat)
    (val : LatticeNode → α) (nodes : List LatticeNode) :
    ∀ acc : List (Nat × List α), (∀ n ∈ nodes, P (key n) (val n)) →
      (∀ e ∈ acc, e.2 ≠ [] ∧ ∀ w ∈ e.2, P e.1 w) →
      ∀ e ∈ nodes.foldl (fun a n => appendAt a (key n) (val n)) acc,
        e.2 ≠ [] ∧ ∀ w ∈ e.2, P e.1 w := by
  induction nodes with
  | nil => intro acc _ hacc; exact hacc
  | cons n ns ih =>
    intro acc hall hacc
    simp only [List.foldl_cons]
    exact ih _ (fun x hx => hall x (List.mem_cons_of_mem n hx))
      (appendAt_entries P acc (key n) (val n) hacc (hall n (List.mem_cons_self n ns)))

theorem lookupD_spec {α : Type} (pw : List (Nat × List α)) (k : Nat)
    (hk : k ∈ pw.map (fun e => e.1)) : (k, lookupD pw k) ∈ pw := by
  obtain ⟨e, he, hke⟩ := List.mem_map.1 hk
  have hs : (pw.find? (fun p => p.1 == k)).isSome :=
    List.find?_isSome.2 ⟨e, he, by simp [hke]⟩
  obtain ⟨e', hfind⟩ := Option.isSome_iff_exists.1 hs
  have he' : e' ∈ pw := List.mem_of_find?_eq_some hfind
  have hkey : e'.1 = k := by
    have := List.find?_some hfind
    simpa using this
  have hl : lookupD pw k = e'.2 := by
    simp [lookupD, hfind]
  rw [hl, ← hkey]
  exact he'

theorem pyMaxBy_mem {α β : Type} [LinearOrder β] (f : α → β) (d : α) (x : α) (xs : List α) :
    pyMaxBy f d (x :: xs) ∈ x :: xs := by
  have key : ∀ (ys : List α) (a : α) (acc : List α), a ∈ acc → (∀ y ∈ ys, y ∈ acc) →
      ys.foldl (fun acc y => if f acc < f y then y else acc) a ∈ acc := by
    intro ys
    induction ys with
    | nil => intro a acc ha _; exact ha
    | cons y ys ihy =>
      intro a acc ha hys
      simp only [List.foldl_cons]
      by_cases h : f a < f y
      · rw [if_pos h]
        exact ihy y acc (hys y (List.mem_cons_self y ys))
          (fun z hz => hys z (List.mem_cons_of_mem y hz))
      · rw [if_neg h]
        exact ihy a acc ha (fun z hz => hys z (List.mem_cons_of_mem y hz))
  exact key xs x (x :: xs) (List.mem_cons_self x xs) (fun z hz => List.mem_cons_of_mem x hz)

theorem sorted_nodup_pairwise_lt (l : List Nat) (hs : List.Sorted (· ≤ ·) l)
    (hn : l.Nodup) : List.Pairwise (· < ·) l :=
  (List.Pairwise.and hs hn).imp (fun h => lt_of_le_of_ne h.1 h.2)

/-- **C4.** The voting consensus contains exactly one word per distinct node
position, emitted in ascending position order, with each word drawn from a
node that exists at that position; its length is the number of distinct
positions of the lattice. -/
theorem voting_consensus_shape (lat : WordLattice) :
    ∃ ps : List Nat,
      List.Pairwise (· < ·) ps ∧
      (∀ p, p ∈ ps ↔ p ∈ lat.nodes.map (fun n => n.position)) ∧
      (voting_consensus lat).length = ps.length ∧
      (voting_consensus lat).length = (lat.nodes.map (fun n => n.position)).dedup.length ∧
      (∀ pr ∈ ps.zip (voting_consensus lat),
        ∃ n ∈ lat.nodes, n.position = pr.1 ∧ n.word = pr.2) := by
  have hcons : voting_consensus lat =
      (((lat.nodes.foldl (fun acc n => appendAt acc n.position (n.word, n.sources.card))
          []).map (fun p => p.1)).insertionSort (· ≤ ·)).map
        (fun pos => (pyMaxBy (fun x => x.2) ("", 0)
          (lookupD (lat.nodes.foldl
            (fun acc n => appendAt acc n.position (n.word, n.sources.card)) []) pos)).1) := rfl
  set pw := lat.nodes.foldl (fun acc n => appendAt acc n.position (n.word, n.sources.card))
    ([] : List (Nat × List (String × Nat))) with hpw
  set ps := (pw.map (fun p => p.1)).insertionSort (· ≤ ·) with hps
  have hperm : List.Perm ps (pw.map (fun p => p.1)) := List.perm_insertionSort _ _
  have hkeysnd : (pw.map (fun p => p.1)).Nodup :=
    foldl_appendAt_keys_nodup (fun n => n.position) (fun n => (n.word, n.sources.card))
      lat.nodes [] (by simp)
  have hkeysmem : ∀ p, p ∈ pw.map (fun e => e.1) ↔ p ∈ lat.nodes.map (fun n => n.position) := by
    intro p
    rw [hpw, foldl_appendAt_keys_mem]
    simp
  have hpsnd : ps.Nodup := hperm.nodup_iff.2 hkeysnd
  have hpsmem : ∀ p, p ∈ ps ↔ p ∈ lat.nodes.map (fun n => n.position) := by
    intro p
    rw [hperm.mem_iff]
    exact hkeysmem p
  have hsorted : List.Sorted (· ≤ ·) ps := List.sorted_insertionSort _ _
  have hentries := foldl_appendAt_entries
    (fun k q => ∃ n ∈ lat.nodes, n.position = k ∧ n.word = q.1 ∧ n.sources.card = q.2)
    (fun n => n.position) (fun n => (n.word, n.sources.card)) lat.nodes []
    (fun n hn => ⟨n, hn, rfl, rfl, rfl⟩) (by simp)
  refine ⟨ps, sorted_nodup_pairwise_lt ps hsorted hpsnd, hpsmem, ?_, ?_, ?_⟩
  · rw [hcons, List.length_map]
  · rw [hcons, List.length_map]
    have hdednd : (lat.nodes.map (fun n => n.position)).dedup.Nodup := List.nodup_dedup _
    have hpermded : List.Perm ps ((lat.nodes.map (fun n => n.position)).dedup) := by
      rw [List.perm_ext_iff_of_nodup hpsnd hdednd]
      intro a
      rw [hpsmem a, List.mem_dedup]
    exact hpermded.length_eq
  · intro pr hpr
    have hzip : ps.zip (voting_consensus lat) =
        ps.map (fun p => (p, (pyMaxBy (fun x => x.2) ("", 0) (lookupD pw p)).1)) := by
      rw [hcons]
      have := List.zip_map' (id : Nat → Nat)
        (fun pos => (pyMaxBy (fun x => x.2) ("", 0) (lookupD pw pos)).1) ps
      simpa using this
    rw [hzip] at hpr
    obtain ⟨p, hp, rfl⟩ := List.mem_map.1 hpr
    have hpk : p ∈ pw.map (fun e => e.1) := (hkeysmem p).2 ((hpsmem p).1 hp)
    have hlk : (p, lookupD pw p) ∈ pw := lookupD_spec pw p hpk
    have hent := hentries (p, lookupD pw p) hlk
    obtain ⟨hne, hall⟩ := hent
    cases hlu : lookupD pw p with
    | nil => exact absurd hlu hne
    | cons q qs =>
      have hm : pyMaxBy (fun x : String × Nat => x.2) ("", 0) (q :: qs) ∈ q :: qs :=
        pyMaxBy_mem _ _ q qs
      rw [← hlu] at hm
      obtain ⟨n, hn, hnp, hnw, _⟩ := hall _ hm
      exact ⟨n, hn, hnp, by rw [hnw, hlu]⟩

theorem toNat_ofNat_small {n : Nat} (h : n < 55296) : (Char.ofNat n).toNat = n := by
  have hv : n.isValidChar := Or.inl h
  rw [Char.ofNat, dif_pos hv]
  simp [Char.ofNatAux, Char.toNat, UInt32.toNat]

theorem lowerChar_idem (c : Char) : lowerChar (lowerChar c) = lowerChar c := by
  unfold lowerChar
  by_cases h : 65 ≤ c.toNat ∧ c.toNat ≤ 90
  · rw [if_pos h]
    have ht : (Char.ofNat (c.toNat + 32)).toNat = c.toNat + 32 :=
      toNat_ofNat_small (by omega)
    have hno : ¬ (65 ≤ (Char.ofNat (c.toNat + 32)).toNat ∧
        (Char.ofNat (c.toNat + 32)).toNat ≤ 90) := by
      rw [ht]
      omega
    rw [if_neg hno]
  · rw [if_neg h, if_neg h]

theorem lower_idem (s : String) : lower (lower s) = lower s := by
  show String.mk (List.map lowerChar (List.map lowerChar s.data)) =
    String.mk (List.map lowerChar s.data)
  rw [List.map_map]
  congr 1
  apply List.map_congr_left
  intro c _
  exact lowerChar_idem c

theorem addName_words_lowered (ws : List (String × Finset String)) (w name : String)
    (hws : ∀ q ∈ ws, lower q.1 = q.1) (hw : lower w = w) :
    ∀ q ∈ addName ws w name, lower q.1 = q.1 := by
  unfold addName
  split
  · intro q hq
    obtain ⟨r, hr, hrq⟩ := List.mem_map.1 hq
    by_cases hk : r.1 == w
    · rw [if_pos hk] at hrq
      subst hrq
      exact hws r hr
    · rw [if_neg hk] at hrq
      subst hrq
      exact hws r hr
  · intro q hq
    rcases List.mem_append.1 hq with hq | hq
    · exact hws q hq
    · have : q = (w, {name}) := by simpa using hq
      subst this
      exact hw

theorem addSource_words_lowered (pw : List (Nat × List (String × Finset String)))
    (pos : Nat) (w name : String)
    (hpw : ∀ e ∈ pw, ∀ q ∈ e.2, lower q.1 = q.1) (hw : lower w = w) :
    ∀ e ∈ addSource pw pos w name, ∀ q ∈ e.2, lower q.1 = q.1 := by
  unfold addSource
  split
  · intro e he
    obtain ⟨r, hr, hre⟩ := List.mem_map.1 he
    by_cases hk : r.1 == pos
    · rw [if_pos hk] at hre
      subst hre
      exact addName_words_lowered r.2 w name (hpw r hr) hw
    · rw [if_neg hk] at hre
      subst hre
      exact hpw r hr
  · intro e he
    rcases List.mem_append.1 he with he | he
    · exact hpw e he
    · have : e = (pos, [(w, {name})]) := by simpa using he
      subst this
      intro q hq
      have : q = (w, {name}) := by simpa using hq
      subst this
      exact hw

theorem position_words_lowered (alignments : List (String × List TraceEntry)) :
    ∀ e ∈ alignments.foldl (fun acc p =>
        p.2.foldl (fun acc2 t =>
          if t.2.2 == EOp.D then acc2 else addSource acc2 t.1 (lower t.2.1) p.1) acc) [],
      ∀ q ∈ e.2, lower q.1 = q.1 := by
  have hinner : ∀ (name : String) (tr : List TraceEntry)
      (acc : List (Nat × List (String × Finset String))),
      (∀ e ∈ acc, ∀ q ∈ e.2, lower q.1 = q.1) →
      ∀ e ∈ tr.foldl (fun acc2 t =>
          if t.2.2 == EOp.D then acc2 else addSource acc2 t.1 (lower t.2.1) name) acc,
        ∀ q ∈ e.2, lower q.1 = q.1 := by
    intro name tr
    induction tr with
    | nil => intro acc h; exact h
    | cons t ts ih =>
      intro acc h
      simp only [List.foldl_cons]
      apply ih
      by_cases hd : t.2.2 == EOp.D
      · rw [if_pos hd]
        exact h
      · rw [if_neg hd]
        exact addSource_words_lowered acc t.1 (lower t.2.1) name h (lower_idem t.2.1)
  have houter : ∀ (als : List (String × List TraceEntry))
      (acc : List (Nat × List (String × Finset String))),
      (∀ e ∈ acc, ∀ q ∈ e.2, lower q.1 = q.1) →
      ∀ e ∈ als.foldl (fun acc p =>
          p.2.foldl (fun acc2 t =>
            if t.2.2 == EOp.D then acc2 else addSource acc2 t.1 (lower t.2.1) p.1) acc) acc,
        ∀ q ∈ e.2, lower q.1 = q.1 := by
    intro als
    induction als with
    | nil => intro acc h; exact h
    | cons a as ih =>
      intro acc h
      simp only [List.foldl_cons]
      exact ih _ (hinner a.1 a.2 acc h)
  exact houter alignments [] (by simp)

theorem lookupD_sub {α : Type} (pw : List (Nat × List α)) (k : Nat) :
    ∀ v ∈ lookupD pw k, ∃ e ∈ pw, v ∈ e.2 := by
  intro v hv
  unfold lookupD at hv
  cases hfind : pw.find? (fun p => p.1 == k) with
  | none =>
    rw [hfind] at hv
    cases hv
  | some e =>
    rw [hfind] at hv
    exact ⟨e, List.mem_of_find?_eq_some hfind, by simpa using hv⟩

theorem construct_nodes_word_lowered (alignments : List (String × List TraceEntry))
    (reference : List String) :
    ∀ n ∈ (construct_lattice alignments reference).nodes, lower n.word = n.word := by
  intro n hn
  unfold construct_lattice at hn
  simp only at hn
  rw [foldl_append_eq_join] at hn
  simp only [List.nil_append] at hn
  obtain ⟨l, hl, hnl⟩ := List.mem_flatten.1 hn
  obtain ⟨pos, hpos, rfl⟩ := List.mem_map.1 hl
  obtain ⟨ws, hws, rfl⟩ := List.mem_map.1 hnl
  obtain ⟨e, he, hwse⟩ := lookupD_sub _ pos ws hws
  exact position_words_lowered alignments e he ws hwse

theorem consensus_words_prop {α : Type} [LinearOrder α] (nodes : List LatticeNode)
    (val : LatticeNode → α) (d : α) (P : String → Prop) (h0 : P "")
    (hw : ∀ n ∈ nodes, P n.word) :
    ∀ w ∈ (((nodes.foldl (fun acc n => appendAt acc n.position (n.word, val n)) []).map
          (fun p => p.1)).insertionSort (· ≤ ·)).map
        (fun pos => (pyMaxBy (fun x => x.2) ("", d)
          (lookupD (nodes.foldl (fun acc n => appendAt acc n.position (n.word, val n)) [])
            pos)).1),
      P w := by
  intro w hwmem
  obtain ⟨pos, hpos, rfl⟩ := List.mem_map.1 hwmem
  set pw := nodes.foldl (fun acc n => appendAt acc n.position (n.word, val n))
    ([] : List (Nat × List (String × α))) with hpw
  cases hlu : lookupD pw pos with
  | nil => exact h0
  | cons q qs =>
    have hentries := foldl_appendAt_entries (fun _ p => P p.1)
      (fun n => n.position) (fun n => (n.word, val n)) nodes []
      (fun n hn => hw n hn) (by simp)
    have hm : pyMaxBy (fun x : String × α => x.2) ("", d) (q :: qs) ∈ q :: qs :=
      pyMaxBy_mem _ _ q qs
    have hm1 : pyMaxBy (fun x : String × α => x.2) ("", d) (q :: qs) ∈ lookupD pw pos := by
      rw [hlu]
      exact hm
    obtain ⟨e, he, hqe⟩ := lookupD_sub pw pos _ hm1
    exact (hentries e he).2 _ hqe

theorem voting_words_prop (lat : WordLattice) (P : String → Prop) (h0 : P "")
    (hw : ∀ n ∈ lat.nodes, P n.word) :
    ∀ w ∈ voting_consensus lat, P w :=
  consensus_words_prop lat.nodes (fun n => n.sources.card) 0 P h0 hw

theorem confidence_words_prop (lat : WordLattice) (P : String → Prop) (h0 : P "")
    (hw : ∀ n ∈ lat.nodes, P n.word) :
    ∀ w ∈ confidence_consensus lat, P w :=
  consensus_words_prop lat.nodes (fun n => n.confidence) 0 P h0 hw

/-- **C10.** Every node built by `_construct_lattice` stores a case-folded
word (fixed by `lower`), and consequently every token of any consensus
transcription returned by `get_consensus_transcription` is lowercase, even
when input hypothesis or reference tokens contain uppercase letters. -/
theorem constructed_words_lowercase (hypotheses : List (String × List String))
    (reference : List String) (strategy : String) (out : List String)
    (hok : (get_consensus_transcription (build_from_hypotheses hypotheses reference)
      strategy).1 = Except.ok out) :
    (∀ n ∈ (build_from_hypotheses hypotheses reference).nodes, lower n.word = n.word) ∧
    (∀ w ∈ out, lower w = w) := by
  have hnodes : ∀ n ∈ (build_from_hypotheses hypotheses reference).nodes,
      lower n.word = n.word :=
    construct_nodes_word_lowered (align_all_sequences hypotheses reference) reference
  refine ⟨hnodes, ?_⟩
  unfold get_consensus_transcription at hok
  split_ifs at hok with h1 h2
  · simp only [Except.ok.injEq] at hok
    rw [← hok]
    exact voting_words_prop _ (fun w => lower w = w) rfl hnodes
  · simp only [Except.ok.injEq] at hok
    rw [← hok]
    exact confidence_words_prop _ (fun w => lower w = w) rfl hnodes

/-- Witness for C10: uppercase reference tokens come out lowercased. -/
theorem constructed_words_lowercase_witness :
    ((get_consensus_transcription (build_from_hypotheses [] ["Hello", "WORLD"]) "voting").1 =
      Except.ok ["hello", "world"]) ∧
    (∀ n ∈ (build_from_hypotheses [] ["Hello", "WORLD"]).nodes, lower n.word = n.word) ∧
    (∀ w ∈ ["hello", "world"], lower w = w) :=
  ⟨by rfl,
    (constructed_words_lowercase [] ["Hello", "WORLD"] "voting" ["hello", "world"] (by rfl)).1,
    (constructed_words_lowercase [] ["Hello", "WORLD"] "voting" ["hello", "world"] (by rfl)).2⟩

end LatticeWer
